import Mathlib

/-!
Verification of the sticker-processing pipeline of tools/process_stickers.py:
mask geometry (edge expansion via a signed distance field, connected-component
hole removal), canvas fitting (bounding box of the first labelled region,
size-catalog lookup, cropping and padding), and the per-design driver loop.

Binary mask images (2D numpy arrays of booleans) are embedded as lists of rows
of booleans.  The scikit-fmm distance transform and the scikit-image
connected-component labeling called by the source are modelled by executable
Lean definitions whose semantics follow the documented library behaviour;
everything else is translated directly from the source.
-/

namespace Stickers

/-- A pixel coordinate: (row, column). -/
abbrev Pt := ℕ × ℕ

/-- Chebyshev adjacency of two distinct pixels, i.e. 8-connectivity: the
default connectivity used by skimage.measure.label on a 2D input array. -/
def adj8 (p q : Pt) : Bool :=
  decide (p ≠ q) && decide (max p.1 q.1 - min p.1 q.1 ≤ 1)
    && decide (max p.2 q.2 - min p.2 q.2 ≤ 1)

theorem adj8_symm (p q : Pt) : adj8 p q = adj8 q p := by
  simp only [adj8, Nat.max_comm p.1 q.1, Nat.min_comm p.1 q.1,
    Nat.max_comm p.2 q.2, Nat.min_comm p.2 q.2, ne_comm]

/-- A binary mask image: a list of rows of booleans. -/
abbrev Grid := List (List Bool)

/-- The cell of a grid at row r, column c, if both indices are in range. -/
def cellAt (g : Grid) (r c : ℕ) : Option Bool :=
  g[r]?.bind fun row => row[c]?

/-- Value of the pixel at (r, c); false outside the grid. -/
def getPx (g : Grid) (r c : ℕ) : Bool := (cellAt g r c).getD false

/-- Apply a function to every cell of one row, passing the column index. -/
def mapRow (f : ℕ → Bool → Bool) : ℕ → List Bool → List Bool
  | _, [] => []
  | c, b :: rest => f c b :: mapRow f (c + 1) rest

/-- Apply a cellwise function to all rows starting at a given row index. -/
def mapRowsFrom (f : ℕ → ℕ → Bool → Bool) : ℕ → Grid → Grid
  | _, [] => []
  | r, row :: rest => mapRow (f r) 0 row :: mapRowsFrom f (r + 1) rest

/-- Apply a cellwise function to a whole grid, passing cell coordinates. -/
def mapGrid (g : Grid) (f : ℕ → ℕ → Bool → Bool) : Grid := mapRowsFrom f 0 g

theorem mapRow_getElem? (f : ℕ → Bool → Bool) (c0 i : ℕ) (l : List Bool) :
    (mapRow f c0 l)[i]? = (l[i]?).map (f (c0 + i)) := by
  induction l generalizing c0 i with
  | nil => simp [mapRow]
  | cons b rest ih =>
    cases i with
    | zero => simp [mapRow]
    | succ j =>
      have h := ih (c0 + 1) j
      simp only [mapRow, List.getElem?_cons_succ]
      rw [h]
      have : c0 + 1 + j = c0 + (j + 1) := by omega
      rw [this]

theorem mapRowsFrom_getElem? (f : ℕ → ℕ → Bool → Bool) (r0 i : ℕ) (g : Grid) :
    (mapRowsFrom f r0 g)[i]? = (g[i]?).map (mapRow (f (r0 + i)) 0) := by
  induction g generalizing r0 i with
  | nil => simp [mapRowsFrom]
  | cons row rest ih =>
    cases i with
    | zero => simp [mapRowsFrom]
    | succ j =>
      have h := ih (r0 + 1) j
      simp only [mapRowsFrom, List.getElem?_cons_succ]
      rw [h]
      have : r0 + 1 + j = r0 + (j + 1) := by omega
      rw [this]

theorem cellAt_mapGrid (g : Grid) (f : ℕ → ℕ → Bool → Bool) (r c : ℕ) :
    cellAt (mapGrid g f) r c = (cellAt g r c).map (f r c) := by
  unfold cellAt mapGrid
  rw [mapRowsFrom_getElem?]
  cases hr : g[r]? with
  | none => simp
  | some row =>
    simp only [Option.map_some', Option.some_bind, Nat.zero_add]
    rw [mapRow_getElem?]
    simp

theorem getPx_mapGrid (g : Grid) (f : ℕ → ℕ → Bool → Bool) (r c : ℕ) :
    getPx (mapGrid g f) r c = ((cellAt g r c).map (f r c)).getD false := by
  unfold getPx
  rw [cellAt_mapGrid]

/-- Grids with the same shape and the same cells are equal. -/
theorem mapGrid_eq_self (g : Grid) (f : ℕ → ℕ → Bool → Bool)
    (h : ∀ r c b, cellAt g r c = some b → f r c b = b) : mapGrid g f = g := by
  apply List.ext_getElem?
  intro r
  unfold mapGrid
  rw [mapRowsFrom_getElem?]
  cases hr : g[r]? with
  | none => simp
  | some row =>
    simp only [Option.map_some', Nat.zero_add]
    congr 1
    apply List.ext_getElem?
    intro c
    rw [mapRow_getElem?]
    cases hc : row[c]? with
    | none => simp
    | some b =>
      simp only [Option.map_some', Nat.zero_add]
      rw [h r c b]
      simp [cellAt, hr, hc]

/-- Scan-order pixels of one row whose value is v, starting at column c. -/
def rowPix (v : Bool) (r : ℕ) : ℕ → List Bool → List Pt
  | _, [] => []
  | c, b :: rest => (if b = v then [(r, c)] else []) ++ rowPix v r (c + 1) rest

/-- Row-major scan-order pixels of a grid whose value is v. -/
def gridPix (v : Bool) : ℕ → Grid → List Pt
  | _, [] => []
  | r, row :: rest => rowPix v r 0 row ++ gridPix v (r + 1) rest

/-- Row-major list of the coordinates of all true pixels. -/
def onPixels (g : Grid) : List Pt := gridPix true 0 g

/-- Row-major list of the coordinates of all false pixels of the grid. -/
def offPixels (g : Grid) : List Pt := gridPix false 0 g

theorem mem_rowPix (v : Bool) (r c0 : ℕ) (l : List Bool) (p : Pt) :
    p ∈ rowPix v r c0 l ↔ ∃ j, p = (r, c0 + j) ∧ l[j]? = some v := by
  induction l generalizing c0 with
  | nil => simp [rowPix]
  | cons b rest ih =>
    simp only [rowPix, List.mem_append, ih (c0 + 1)]
    constructor
    · rintro (h | ⟨j, hp, hj⟩)
      · by_cases hb : b = v
        · rw [if_pos hb] at h
          refine ⟨0, by simpa using h, by simp [hb]⟩
        · rw [if_neg hb] at h
          simp at h
      · refine ⟨j + 1, ?_, by simpa using hj⟩
        rw [hp]
        have h2 : c0 + 1 + j = c0 + (j + 1) := by omega
        rw [h2]
    · rintro ⟨j, hp, hj⟩
      cases j with
      | zero =>
        simp only [List.getElem?_cons_zero, Option.some.injEq] at hj
        left
        rw [if_pos hj]
        simp [hp]
      | succ k =>
        right
        refine ⟨k, ?_, by simpa using hj⟩
        rw [hp]
        have h2 : c0 + (k + 1) = c0 + 1 + k := by omega
        rw [h2]

theorem mem_gridPix (v : Bool) (r0 : ℕ) (g : Grid) (p : Pt) :
    p ∈ gridPix v r0 g ↔ ∃ i c, p = (r0 + i, c) ∧ cellAt g i c = some v := by
  induction g generalizing r0 with
  | nil => simp [gridPix, cellAt]
  | cons row rest ih =>
    simp only [gridPix, List.mem_append, mem_rowPix, ih (r0 + 1)]
    constructor
    · rintro (⟨j, hp, hj⟩ | ⟨i, c, hp, hc⟩)
      · exact ⟨0, j, by simpa using hp, by simp [cellAt, hj]⟩
      · refine ⟨i + 1, c, ?_, by simpa [cellAt] using hc⟩
        rw [hp]
        have : r0 + 1 + i = r0 + (i + 1) := by omega
        rw [this]
    · rintro ⟨i, c, hp, hc⟩
      cases i with
      | zero =>
        left
        refine ⟨c, by simpa using hp, ?_⟩
        simpa [cellAt] using hc
      | succ k =>
        right
        refine ⟨k, c, ?_, by simpa [cellAt] using hc⟩
        rw [hp]
        have : r0 + (k + 1) = r0 + 1 + k := by omega
        rw [this]

theorem mem_onPixels (g : Grid) (r c : ℕ) :
    (r, c) ∈ onPixels g ↔ cellAt g r c = some true := by
  unfold onPixels
  rw [mem_gridPix]
  constructor
  · rintro ⟨i, c2, hp, hc⟩
    simp only [Prod.mk.injEq] at hp
    obtain ⟨h1, h2⟩ := hp
    subst h2
    have : r = i := by omega
    subst this
    exact hc
  · intro h
    exact ⟨r, c, by simp, h⟩

theorem mem_offPixels (g : Grid) (r c : ℕ) :
    (r, c) ∈ offPixels g ↔ cellAt g r c = some false := by
  unfold offPixels
  rw [mem_gridPix]
  constructor
  · rintro ⟨i, c2, hp, hc⟩
    simp only [Prod.mk.injEq] at hp
    obtain ⟨h1, h2⟩ := hp
    subst h2
    have : r = i := by omega
    subst this
    exact hc
  · intro h
    exact ⟨r, c, by simp, h⟩

theorem getPx_eq_true_iff (g : Grid) (r c : ℕ) :
    getPx g r c = true ↔ cellAt g r c = some true := by
  unfold getPx
  cases h : cellAt g r c with
  | none => simp
  | some b => cases b <;> simp

/-- Squared Euclidean distance between two pixel centres. -/
def sqDist (p q : Pt) : ℕ :=
  (max p.1 q.1 - min p.1 q.1) ^ 2 + (max p.2 q.2 - min p.2 q.2) ^ 2

theorem one_le_sqDist (p q : Pt) (h : p ≠ q) : 1 ≤ sqDist p q := by
  unfold sqDist
  by_cases h1 : p.1 = q.1
  · have h2 : p.2 ≠ q.2 := by
      intro h2
      exact h (Prod.ext h1 h2)
    have hb : 1 ≤ max p.2 q.2 - min p.2 q.2 := by omega
    have : 1 ^ 2 ≤ (max p.2 q.2 - min p.2 q.2) ^ 2 := Nat.pow_le_pow_left hb 2
    omega
  · have ha : 1 ≤ max p.1 q.1 - min p.1 q.1 := by omega
    have : 1 ^ 2 ≤ (max p.1 q.1 - min p.1 q.1) ^ 2 := Nat.pow_le_pow_left ha 2
    omega

/-- Minimum of a list of naturals, with a fallback value for the empty list. -/
def minList : List ℕ → ℕ → ℕ
  | [], d => d
  | x :: xs, _ => xs.foldl min x

theorem le_foldl_min (k a : ℕ) (xs : List ℕ) (ha : k ≤ a)
    (h : ∀ x ∈ xs, k ≤ x) : k ≤ xs.foldl min a := by
  induction xs generalizing a with
  | nil => exact ha
  | cons x rest ih =>
    refine ih (min a x) (le_min ha (h x (by simp))) fun y hy => h y (by simp [hy])

theorem le_minList (k : ℕ) (l : List ℕ) (d : ℕ) (hne : l ≠ [])
    (h : ∀ x ∈ l, k ≤ x) : k ≤ minList l d := by
  cases l with
  | nil => exact absurd rfl hne
  | cons x xs =>
    exact le_foldl_min k x xs (h x (by simp)) fun y hy => h y (by simp [hy])

/-- Minimum squared distance from p to a point of l (0 when l is empty). -/
def minSqTo (p : Pt) (l : List Pt) : ℕ := minList (l.map (sqDist p)) 0

theorem one_le_minSqTo (p : Pt) (l : List Pt) (hne : l ≠ [])
    (h : ∀ q ∈ l, q ≠ p) : 1 ≤ minSqTo p l := by
  unfold minSqTo
  apply le_minList
  · simp [hne]
  · intro x hx
    obtain ⟨q, hq, rfl⟩ := List.mem_map.mp hx
    exact one_le_sqDist p q fun hpq => h q hq (hpq ▸ rfl)

/-- One cell of the expanded mask.  Models the source comparison
(signed_distance <= thickness) from expand_edge: with phi equal to -0.5 on
mask pixels and +0.5 elsewhere, skfmm.distance returns a signed distance
field whose zero contour lies half a pixel unit outside the mask pixels, so
an on pixel p has signed distance 1/2 - sqrt(minSqTo p offP) and an off
pixel has signed distance sqrt(minSqTo p onP) - 1/2.  The comparison with
the threshold t is expressed on squares to stay in rational arithmetic:
1/2 - sqrt m <= t iff 1/2 - t <= 0 or (1/2 - t)^2 <= m, and
sqrt m - 1/2 <= t iff 0 <= t + 1/2 and m <= (t + 1/2)^2. -/
def expandCell (onP offP : List Pt) (t : ℚ) (r c : ℕ) (b : Bool) : Bool :=
  if b then
    decide ((1 : ℚ) / 2 - t ≤ 0)
      || decide (((1 : ℚ) / 2 - t) ^ 2 ≤ (minSqTo (r, c) offP : ℚ))
  else
    decide ((0 : ℚ) ≤ t + 1 / 2)
      && decide ((minSqTo (r, c) onP : ℚ) ≤ (t + 1 / 2) ^ 2)

/-- Exceptions that the modelled script can raise. -/
inductive PyError where
  | valueErrorNoContour
  | typeErrorNoneDivision
  | zeroDivisionError
  | indexErrorNoRegions
  | valueErrorNoSize
  deriving DecidableEq

/-- Translation of expand_edge (process_stickers.py, lines 14-18): build the
phase field phi (-0.5 inside the mask, +0.5 outside), run skfmm.distance
with unit spacing, and keep the pixels whose signed distance is at most
the given thickness.  skfmm.distance raises ValueError when phi has no
zero contour, i.e. when the mask is empty or covers every pixel. -/
def expand_edge (g : Grid) (t : ℚ) : Except PyError Grid :=
  if onPixels g = [] ∨ offPixels g = [] then .error .valueErrorNoContour
  else .ok (mapGrid g (expandCell (onPixels g) (offPixels g) t))

theorem expandCell_mono (onP offP : List Pt) (t1 t2 : ℚ) (ht : t1 ≤ t2)
    (r c : ℕ) (b : Bool) (h : expandCell onP offP t1 r c b = true) :
    expandCell onP offP t2 r c b = true := by
  cases b with
  | true =>
    simp only [expandCell, if_true, Bool.or_eq_true, decide_eq_true_eq] at h ⊢
    rcases h with h | h
    · left; linarith
    · by_cases h0 : (1 : ℚ) / 2 - t2 ≤ 0
      · left; exact h0
      · right
        have hsq : ((1 : ℚ) / 2 - t2) ^ 2 ≤ ((1 : ℚ) / 2 - t1) ^ 2 :=
          pow_le_pow_left₀ (by linarith) (by linarith) 2
        linarith
  | false =>
    unfold expandCell at h ⊢
    rw [if_neg Bool.false_ne_true] at h ⊢
    rw [Bool.and_eq_true, decide_eq_true_eq, decide_eq_true_eq] at h
    rw [Bool.and_eq_true, decide_eq_true_eq, decide_eq_true_eq]
    obtain ⟨h1, h2⟩ := h
    refine ⟨by linarith, ?_⟩
    have hsq : (t1 + 1 / 2) ^ 2 ≤ (t2 + 1 / 2) ^ 2 :=
      pow_le_pow_left₀ h1 (by linarith) 2
    linarith

theorem expandCell_on (onP offP : List Pt) (t : ℚ) (ht : 0 ≤ t) (r c : ℕ)
    (hmin : 1 ≤ minSqTo (r, c) offP) :
    expandCell onP offP t r c true = true := by
  simp only [expandCell, if_true, Bool.or_eq_true, decide_eq_true_eq]
  by_cases h0 : (1 : ℚ) / 2 - t ≤ 0
  · left; exact h0
  · right
    have h1 : ((1 : ℚ) / 2 - t) ^ 2 ≤ ((1 : ℚ) / 2) ^ 2 :=
      pow_le_pow_left₀ (by linarith) (by linarith) 2
    have h2 : (1 : ℚ) ≤ (minSqTo (r, c) offP : ℚ) := by exact_mod_cast hmin
    nlinarith

theorem expandCell_zero_off (onP offP : List Pt) (r c : ℕ)
    (hmin : 1 ≤ minSqTo (r, c) onP) :
    expandCell onP offP 0 r c false = false := by
  have h1 : (1 : ℚ) ≤ (minSqTo (r, c) onP : ℚ) := by exact_mod_cast hmin
  unfold expandCell
  rw [if_neg Bool.false_ne_true]
  rw [Bool.and_eq_false_iff]
  right
  rw [decide_eq_false_iff_not]
  intro hle
  norm_num at hle
  linarith

theorem expand_edge_ok (g : Grid) (t : ℚ) (m : Grid)
    (h : expand_edge g t = .ok m) :
    onPixels g ≠ [] ∧ offPixels g ≠ [] ∧
      m = mapGrid g (expandCell (onPixels g) (offPixels g) t) := by
  unfold expand_edge at h
  by_cases hc : onPixels g = [] ∨ offPixels g = []
  · rw [if_pos hc] at h
    cases h
  · rw [if_neg hc] at h
    push_neg at hc
    exact ⟨hc.1, hc.2, (Except.ok.inj h).symm⟩

/-- Growing a mask by a non-negative distance keeps every mask pixel:
mask pixels have non-positive signed distance. -/
theorem expand_edge_superset (g : Grid) (t : ℚ) (m : Grid) (ht : 0 ≤ t)
    (h : expand_edge g t = .ok m) (r c : ℕ) (hpx : getPx g r c = true) :
    getPx m r c = true := by
  obtain ⟨hon, hoff, rfl⟩ := expand_edge_ok g t m h
  rw [getPx_eq_true_iff] at hpx
  rw [getPx_eq_true_iff, cellAt_mapGrid, hpx]
  simp only [Option.map_some', Option.some.injEq]
  apply expandCell_on _ _ _ ht
  apply one_le_minSqTo _ _ hoff
  rintro ⟨qr, qc⟩ hq hqp
  rw [mem_offPixels] at hq
  rw [Prod.mk.injEq] at hqp
  obtain ⟨rfl, rfl⟩ := hqp
  rw [hpx] at hq
  cases hq

/-- In-mask adjacency: both pixels belong to the mask and are 8-neighbours. -/
def adjOn (m : Finset Pt) (p q : Pt) : Prop := p ∈ m ∧ q ∈ m ∧ adj8 p q = true

/-- Connectivity inside the mask m: reflexive transitive closure of
8-neighbour adjacency through mask pixels. -/
def ConnOn (m : Finset Pt) : Pt → Pt → Prop := Relation.ReflTransGen (adjOn m)

theorem adjOn_symm (m : Finset Pt) : Symmetric (adjOn m) := by
  rintro p q ⟨hp, hq, ha⟩
  exact ⟨hq, hp, (adj8_symm p q) ▸ ha⟩

theorem connOn_symm (m : Finset Pt) {p q : Pt} (h : ConnOn m p q) :
    ConnOn m q p :=
  Relation.ReflTransGen.symmetric (adjOn_symm m) h

theorem connOn_trans (m : Finset Pt) {p q x : Pt} (h1 : ConnOn m p q)
    (h2 : ConnOn m q x) : ConnOn m p x :=
  Relation.ReflTransGen.trans h1 h2

theorem connOn_mem (m : Finset Pt) {p x : Pt} (hp : p ∈ m)
    (h : ConnOn m p x) : x ∈ m := by
  induction h with
  | refl => exact hp
  | tail _ hrel _ => exact hrel.2.1

/-- One growth step of the flood fill: add every mask pixel that is
adjacent to the current set. -/
def floodStep (m s : Finset Pt) : Finset Pt :=
  s ∪ m.filter fun p => ∃ q ∈ s, adj8 q p = true

/-- Iterated flood fill. -/
def floodAux (m : Finset Pt) : ℕ → Finset Pt → Finset Pt
  | 0, s => s
  | n + 1, s => floodAux m n (floodStep m s)

/-- The connected component of the mask m containing the pixel p, computed
by flood fill: iterating one growth step per mask pixel reaches the fixed
point.  This models one labelled region of skimage.measure.label. -/
def componentOf (m : Finset Pt) (p : Pt) : Finset Pt := floodAux m m.card {p}

theorem subset_floodStep (m s : Finset Pt) : s ⊆ floodStep m s :=
  Finset.subset_union_left

theorem floodStep_subset (m s : Finset Pt) (hs : s ⊆ m) : floodStep m s ⊆ m := by
  unfold floodStep
  intro x hx
  rcases Finset.mem_union.mp hx with h | h
  · exact hs h
  · exact (Finset.mem_filter.mp h).1

theorem subset_floodAux (m : Finset Pt) (n : ℕ) (s : Finset Pt) :
    s ⊆ floodAux m n s := by
  induction n generalizing s with
  | zero => exact fun x hx => hx
  | succ k ih => exact (subset_floodStep m s).trans (ih (floodStep m s))

theorem floodAux_subset (m : Finset Pt) (n : ℕ) (s : Finset Pt) (hs : s ⊆ m) :
    floodAux m n s ⊆ m := by
  induction n generalizing s with
  | zero => exact hs
  | succ k ih => exact ih _ (floodStep_subset m s hs)

theorem floodAux_conn (m : Finset Pt) (p : Pt) (n : ℕ) (s : Finset Pt)
    (hs : s ⊆ m) (hconn : ∀ x ∈ s, ConnOn m p x) :
    ∀ x ∈ floodAux m n s, ConnOn m p x := by
  induction n generalizing s with
  | zero => exact hconn
  | succ k ih =>
    apply ih (floodStep m s) (floodStep_subset m s hs)
    intro x hx
    rcases Finset.mem_union.mp hx with h | h
    · exact hconn x h
    · obtain ⟨hxm, q, hqs, hadj⟩ := Finset.mem_filter.mp h
      exact Relation.ReflTransGen.tail (hconn q hqs) ⟨hs hqs, hxm, hadj⟩

theorem floodAux_fix (m : Finset Pt) (n : ℕ) (s : Finset Pt)
    (hfix : floodStep m s = s) : floodAux m n s = s := by
  induction n with
  | zero => rfl
  | succ k ih =>
    show floodAux m k (floodStep m s) = s
    rw [hfix]
    exact ih

theorem floodAux_closed (m : Finset Pt) (n : ℕ) (s : Finset Pt) (hs : s ⊆ m)
    (hcard : (m \ s).card ≤ n) :
    floodStep m (floodAux m n s) = floodAux m n s := by
  induction n generalizing s with
  | zero =>
    have hms : m ⊆ s := by
      intro x hx
      by_contra hxs
      have hmem : x ∈ m \ s := Finset.mem_sdiff.mpr ⟨hx, hxs⟩
      have : 0 < (m \ s).card := Finset.card_pos.mpr ⟨x, hmem⟩
      omega
    show floodStep m s = s
    apply Finset.Subset.antisymm
    · apply Finset.union_subset (Finset.Subset.refl s)
      exact (Finset.filter_subset _ m).trans hms
    · exact subset_floodStep m s
  | succ k ih =>
    by_cases hfix : floodStep m s = s
    · show floodStep m (floodAux m k (floodStep m s)) = floodAux m k (floodStep m s)
      rw [hfix, floodAux_fix m k s hfix]
      exact hfix
    · have hlt : s ⊂ floodStep m s :=
        lt_of_le_of_ne (subset_floodStep m s) fun h => hfix h.symm
      obtain ⟨x, hxstep, hxs⟩ := Finset.exists_of_ssubset hlt
      have hxm : x ∈ m := floodStep_subset m s hs hxstep
      have hcardlt : (m \ floodStep m s).card < (m \ s).card := by
        apply Finset.card_lt_card
        constructor
        · exact Finset.sdiff_subset_sdiff (Finset.Subset.refl m) (subset_floodStep m s)
        · intro hsub
          have hx1 : x ∈ m \ s := Finset.mem_sdiff.mpr ⟨hxm, hxs⟩
          have hx2 : x ∈ m \ floodStep m s := hsub hx1
          exact (Finset.mem_sdiff.mp hx2).2 hxstep
      exact ih (floodStep m s) (floodStep_subset m s hs) (by omega)

/-- Correctness of the flood fill: the computed component of p is exactly
the set of pixels connected to p inside the mask. -/
theorem mem_componentOf (m : Finset Pt) (p : Pt) (hp : p ∈ m) (x : Pt) :
    x ∈ componentOf m p ↔ ConnOn m p x := by
  constructor
  · intro hx
    refine floodAux_conn m p m.card {p} (by simpa using hp) ?_ x hx
    intro y hy
    rw [Finset.mem_singleton] at hy
    subst hy
    exact Relation.ReflTransGen.refl
  · intro hconn
    induction hconn with
    | refl => exact subset_floodAux m m.card {p} (Finset.mem_singleton_self p)
    | tail hab hrel ih =>
      obtain ⟨hbm, hcm, hadj⟩ := hrel
      have hclosed := floodAux_closed m m.card {p} (by simpa using hp)
        (Finset.card_le_card Finset.sdiff_subset)
      rw [show componentOf m p = floodStep m (componentOf m p) from hclosed.symm]
      apply Finset.mem_union_right
      apply Finset.mem_filter.mpr
      exact ⟨hcm, _, ih, hadj⟩

theorem self_mem_componentOf (m : Finset Pt) (p : Pt) : p ∈ componentOf m p :=
  subset_floodAux m m.card {p} (Finset.mem_singleton_self p)

theorem componentOf_subset (m : Finset Pt) (p : Pt) (hp : p ∈ m) :
    componentOf m p ⊆ m :=
  floodAux_subset m m.card {p} (by simpa using hp)

/-- Labelled regions of a mask, in the order skimage.measure.label assigns
labels: scan the mask pixels in row-major order and open a new region at
every pixel not already covered by an earlier region.  Recursion is on an
explicit fuel; each step strikes out at least the scanned pixel, so fuel
equal to the length of the scan list is enough. -/
def componentsAux (m : Finset Pt) : ℕ → List Pt → List (Finset Pt)
  | _, [] => []
  | 0, _ :: _ => []
  | fuel + 1, p :: rest =>
    componentOf m p ::
      componentsAux m fuel (rest.filter fun q => decide (q ∉ componentOf m p))

/-- The labelled regions of a grid, ordered by label, as produced by
skimage.measure.label followed by skimage.measure.regionprops
(process_stickers.py, lines 179-180 and 201-202). -/
def componentsList (g : Grid) : List (Finset Pt) :=
  componentsAux (onPixels g).toFinset (onPixels g).length (onPixels g)

theorem componentsAux_seed (m : Finset Pt) (fuel : ℕ) (l : List Pt) :
    ∀ c ∈ componentsAux m fuel l, ∃ p ∈ l, c = componentOf m p := by
  induction fuel generalizing l with
  | zero => cases l <;> simp [componentsAux]
  | succ k ih =>
    cases l with
    | nil => simp [componentsAux]
    | cons p rest =>
      simp only [componentsAux]
      intro c hc
      rcases List.mem_cons.mp hc with h | h
      · exact ⟨p, by simp, h⟩
      · obtain ⟨q, hq, rfl⟩ := ih _ c h
        exact ⟨q, by simp [(List.mem_filter.mp hq).1], rfl⟩

theorem componentsAux_cover (m : Finset Pt) (fuel : ℕ) (l : List Pt) :
    l.length ≤ fuel → (∀ x ∈ l, x ∈ m) →
      ∀ x ∈ l, ∃ c ∈ componentsAux m fuel l, x ∈ c := by
  induction fuel generalizing l with
  | zero =>
    intro hlen _ x hx
    cases l with
    | nil => cases hx
    | cons p rest => simp at hlen
  | succ k ih =>
    intro hlen hl x hx
    cases l with
    | nil => cases hx
    | cons p rest =>
      simp only [componentsAux]
      rcases List.mem_cons.mp hx with h | h
      · subst h
        exact ⟨componentOf m x, by simp, self_mem_componentOf m x⟩
      · by_cases hxc : x ∈ componentOf m p
        · exact ⟨componentOf m p, by simp, hxc⟩
        · have hxf : x ∈ rest.filter fun q => decide (q ∉ componentOf m p) :=
            List.mem_filter.mpr ⟨h, by simpa using hxc⟩
          have hlenf : (rest.filter fun q => decide (q ∉ componentOf m p)).length ≤ k := by
            have h1 := List.length_filter_le (fun q => decide (q ∉ componentOf m p)) rest
            simp only [List.length_cons] at hlen
            omega
          have hlf : ∀ y ∈ rest.filter fun q => decide (q ∉ componentOf m p), y ∈ m :=
            fun y hy => hl y (by simp [(List.mem_filter.mp hy).1])
          obtain ⟨c, hc, hxin⟩ := ih _ hlenf hlf x hxf
          exact ⟨c, List.mem_cons.mpr (Or.inr hc), hxin⟩

theorem componentsAux_disjoint (m : Finset Pt) (fuel : ℕ) (l : List Pt) :
    (∀ x ∈ l, x ∈ m) →
      (componentsAux m fuel l).Pairwise fun c d => ∀ x, x ∈ c → x ∉ d := by
  induction fuel generalizing l with
  | zero => intro _; cases l <;> simp [componentsAux]
  | succ k ih =>
    intro hl
    cases l with
    | nil => simp [componentsAux]
    | cons p rest =>
      simp only [componentsAux]
      have hp : p ∈ m := hl p (by simp)
      have hlf : ∀ y ∈ rest.filter fun q => decide (q ∉ componentOf m p), y ∈ m :=
        fun y hy => hl y (by simp [(List.mem_filter.mp hy).1])
      refine List.Pairwise.cons ?_ (ih _ hlf)
      intro d hd x hxc hxd
      obtain ⟨q, hq, rfl⟩ := componentsAux_seed m k _ d hd
      obtain ⟨hqrest, hqnc⟩ := List.mem_filter.mp hq
      have hqm : q ∈ m := hl q (by simp [hqrest])
      have hconn1 : ConnOn m p x := (mem_componentOf m p hp x).mp hxc
      have hconn2 : ConnOn m q x := (mem_componentOf m q hqm x).mp hxd
      have hconnpq : ConnOn m p q := connOn_trans m hconn1 (connOn_symm m hconn2)
      have : q ∈ componentOf m p := (mem_componentOf m p hp q).mpr hconnpq
      simp [this] at hqnc

theorem componentsAux_mem_subset (m : Finset Pt) (fuel : ℕ) (l : List Pt)
    (hl : ∀ x ∈ l, x ∈ m) :
    ∀ c ∈ componentsAux m fuel l, ∀ x ∈ c, x ∈ m := by
  intro c hc x hx
  obtain ⟨q, hq, rfl⟩ := componentsAux_seed m fuel l c hc
  exact componentOf_subset m q (hl q hq) hx

/-- Insert step of a stable insertion sort: the new element is placed
before the first element it may precede, so elements that compare equal
keep their original relative order. -/
def stableInsert (le : α → α → Bool) (a : α) : List α → List α
  | [] => [a]
  | b :: t => if le a b then a :: b :: t else b :: stableInsert le a t

/-- Stable insertion sort.  A stable sort is a function of the comparator
and the input list alone, so this models the stable sort performed by the
Python builtin sorted(). -/
def stableSort (le : α → α → Bool) : List α → List α
  | [] => []
  | a :: t => stableInsert le a (stableSort le t)

theorem stableInsert_perm (le : α → α → Bool) (a : α) (l : List α) :
    (stableInsert le a l).Perm (a :: l) := by
  induction l with
  | nil => rfl
  | cons b t ih =>
    unfold stableInsert
    by_cases h : le a b = true
    · rw [if_pos h]
    · rw [if_neg h]
      exact List.Perm.trans (List.Perm.cons b ih) (List.Perm.swap a b t)

theorem stableSort_perm (le : α → α → Bool) (l : List α) :
    (stableSort le l).Perm l := by
  induction l with
  | nil => rfl
  | cons a t ih =>
    exact (stableInsert_perm le a (stableSort le t)).trans (List.Perm.cons a ih)

theorem mem_stableSort (le : α → α → Bool) (l : List α) (x : α) :
    x ∈ stableSort le l ↔ x ∈ l :=
  (stableSort_perm le l).mem_iff

theorem stableInsert_pairwise (le : α → α → Bool)
    (htot : ∀ a b, le a b = false → le b a = true)
    (htrans : ∀ a b c, le a b = true → le b c = true → le a c = true)
    (a : α) (l : List α) (hl : l.Pairwise fun x y => le x y = true) :
    (stableInsert le a l).Pairwise fun x y => le x y = true := by
  induction l with
  | nil => simp [stableInsert]
  | cons b t ih =>
    rcases List.pairwise_cons.mp hl with ⟨hb, ht⟩
    unfold stableInsert
    by_cases h : le a b = true
    · rw [if_pos h]
      refine List.pairwise_cons.mpr ⟨?_, hl⟩
      intro x hx
      rcases List.mem_cons.mp hx with rfl | hx
      · exact h
      · exact htrans a b x h (hb x hx)
    · rw [if_neg h]
      refine List.pairwise_cons.mpr ⟨?_, ih ht⟩
      intro x hx
      have hx2 := (stableInsert_perm le a t).mem_iff.mp hx
      rcases List.mem_cons.mp hx2 with h2 | hx2
      · rw [h2]
        exact htot a b (by simpa using h)
      · exact hb x hx2

theorem stableSort_pairwise (le : α → α → Bool)
    (htot : ∀ a b, le a b = false → le b a = true)
    (htrans : ∀ a b c, le a b = true → le b c = true → le a c = true)
    (l : List α) :
    (stableSort le l).Pairwise fun x y => le x y = true := by
  induction l with
  | nil => simp [stableSort]
  | cons a t ih => exact stableInsert_pairwise le htot htrans a _ ih

theorem find?_congr_on (p q : α → Bool) (l : List α)
    (h : ∀ x ∈ l, p x = q x) : l.find? p = l.find? q := by
  induction l with
  | nil => rfl
  | cons a t ih =>
    cases hqa : q a with
    | true =>
      rw [List.find?_cons_of_pos _ (by rw [h a (by simp)]; exact hqa),
        List.find?_cons_of_pos _ hqa]
    | false =>
      rw [List.find?_cons_of_neg _ (by rw [h a (by simp)]; simp [hqa]),
        List.find?_cons_of_neg _ (by simp [hqa])]
      exact ih fun x hx => h x (by simp [hx])

/-- The head of the stable descending sort by a ℕ key is the first list
element attaining the maximal key: the stable sort keeps the original
order among elements with equal keys. -/
theorem stableSort_head_firstMax (key : α → ℕ) (l : List α) :
    (stableSort (fun a b => decide (key b ≤ key a)) l).head? =
      l.find? fun a => l.all fun b => decide (key b ≤ key a) := by
  induction l with
  | nil => rfl
  | cons a t ih =>
    show (stableInsert _ a (stableSort _ t)).head? = _
    cases hsort : stableSort (fun a b => decide (key b ≤ key a)) t with
    | nil =>
      have ht : t = [] := by
        have := stableSort_perm (fun a b => decide (key b ≤ key a)) t
        rw [hsort] at this
        exact (List.Perm.nil_eq this).symm
      subst ht
      simp [stableInsert]
    | cons b t2 =>
      rw [hsort] at ih
      have hbfind : t.find? (fun x => t.all fun y => decide (key y ≤ key x)) = some b :=
        ih.symm
      have hbmem : b ∈ t := List.mem_of_find?_eq_some hbfind
      have hbmax2 := List.find?_some hbfind
      have hbmax3 : ∀ y ∈ t, key y ≤ key b := by
        intro y hy
        have := List.all_eq_true.mp hbmax2 y hy
        simpa using this
      unfold stableInsert
      by_cases hab : (decide (key b ≤ key a) : Bool) = true
      · rw [if_pos hab]
        have hamax : ((a :: t).all fun y => decide (key y ≤ key a)) = true := by
          rw [List.all_eq_true]
          intro y hy
          rcases List.mem_cons.mp hy with rfl | hy
          · simp
          · simp only [decide_eq_true_eq]
            exact le_trans (hbmax3 y hy) (by simpa using hab)
        rw [@List.find?_cons_of_pos _ (fun x => (a :: t).all fun y => decide (key y ≤ key x))
          a t hamax]
        rfl
      · rw [if_neg hab]
        have hba : key a < key b := by
          have h2 : ¬ key b ≤ key a := by simpa using hab
          omega
        have hanot : ((a :: t).all fun y => decide (key y ≤ key a)) = false := by
          rw [List.all_eq_false]
          refine ⟨b, by simp [hbmem], ?_⟩
          simp only [decide_eq_true_eq]
          omega
        rw [@List.find?_cons_of_neg _ (fun x => (a :: t).all fun y => decide (key y ≤ key x))
          a t (by simp [hanot])]
        have hcong : t.find? (fun x => (a :: t).all fun y => decide (key y ≤ key x)) =
            t.find? fun x => t.all fun y => decide (key y ≤ key x) := by
          apply find?_congr_on
          intro x hx
          rw [List.all_cons]
          cases hq : t.all fun y => decide (key y ≤ key x) with
          | false => simp
          | true =>
            have hbx : key b ≤ key x := by
              have := List.all_eq_true.mp hq b hbmem
              simpa using this
            simp only [Bool.and_true]
            simp only [decide_eq_true_eq]
            omega
        rw [hcong, hbfind]
        rfl

/-- Scan of the ascending size list performed by the loop of
find_smallest_size: return the first entry strictly greater than size. -/
def findFirstGreater (size : ℚ) : List ℚ → Except PyError ℚ
  | [] => .error .valueErrorNoSize
  | x :: rest => if size < x then .ok x else findFirstGreater size rest

/-- Translation of find_smallest_size (process_stickers.py, lines 41-49):
iterate over sorted(size_list) and return the first entry strictly greater
than the given size; raise ValueError when no entry is. -/
def find_smallest_size (size : ℚ) (size_list : List ℚ) : Except PyError ℚ :=
  findFirstGreater size (stableSort (fun a b : ℚ => decide (a ≤ b)) size_list)

theorem sortQ_pairwise (l : List ℚ) :
    (stableSort (fun a b : ℚ => decide (a ≤ b)) l).Pairwise (· ≤ ·) := by
  have h := stableSort_pairwise (fun a b : ℚ => decide (a ≤ b))
    (fun a b hab => by simp at hab ⊢; linarith)
    (fun a b c h1 h2 => by simp at h1 h2 ⊢; linarith) l
  exact h.imp fun hxy => by simpa using hxy

theorem findFirstGreater_ok (size v : ℚ) (s : List ℚ)
    (hsort : s.Pairwise (· ≤ ·)) (h : findFirstGreater size s = .ok v) :
    v ∈ s ∧ size < v ∧ ∀ x ∈ s, size < x → v ≤ x := by
  induction s with
  | nil => cases h
  | cons a rest ih =>
    rcases List.pairwise_cons.mp hsort with ⟨ha, hrest⟩
    unfold findFirstGreater at h
    by_cases hlt : size < a
    · rw [if_pos hlt] at h
      obtain rfl := Except.ok.inj h
      refine ⟨by simp, hlt, ?_⟩
      intro x hx _
      rcases List.mem_cons.mp hx with h2 | h2
      · rw [h2]
      · exact ha x h2
    · rw [if_neg hlt] at h
      obtain ⟨hmem, hgt, hmin⟩ := ih hrest h
      refine ⟨by simp [hmem], hgt, ?_⟩
      intro x hx hxgt
      rcases List.mem_cons.mp hx with h2 | h2
      · rw [h2] at hxgt
        exact absurd hxgt hlt
      · exact hmin x h2 hxgt

theorem findFirstGreater_err (size : ℚ) (s : List ℚ)
    (h : ∀ x ∈ s, x ≤ size) :
    findFirstGreater size s = .error .valueErrorNoSize := by
  induction s with
  | nil => rfl
  | cons a rest ih =>
    unfold findFirstGreater
    rw [if_neg (not_lt.mpr (h a (by simp)))]
    exact ih fun x hx => h x (by simp [hx])

theorem findFirstGreater_exists (size : ℚ) (s : List ℚ) (x : ℚ) (hx : x ∈ s)
    (hgt : size < x) : ∃ v, findFirstGreater size s = .ok v := by
  induction s with
  | nil => cases hx
  | cons a rest ih =>
    unfold findFirstGreater
    by_cases hlt : size < a
    · exact ⟨a, by rw [if_pos hlt]⟩
    · rw [if_neg hlt]
      apply ih
      rcases List.mem_cons.mp hx with h2 | h2
      · rw [h2] at hgt
        exact absurd hgt hlt
      · exact h2

/-- Translation of the hole-removal step (process_stickers.py, lines
179-184): label the connected regions of the mask, sort them by decreasing
pixel count (Python sorted with key -num_pixels is stable, so regions of
equal size keep their label order), and clear the pixels of every region
except the first of the sorted list. -/
def remove_minor_regions (g : Grid) : Grid :=
  mapGrid g fun r c b =>
    b && !(((stableSort (fun cd dd : Finset Pt => decide (dd.card ≤ cd.card))
      (componentsList g)).drop 1).any fun reg => decide ((r, c) ∈ reg))

/-- Bounding box of one labelled region in the (x, y, width, height) form
built on lines 203-205 from the skimage bbox (min_row, min_col, max_row+1,
max_col+1). -/
def regionXYWH (c : Finset Pt) : ℕ × ℕ × ℕ × ℕ :=
  ((c.image Prod.snd).min.untop' 0, (c.image Prod.fst).min.untop' 0,
    (c.image Prod.snd).max.unbot' 0 + 1 - (c.image Prod.snd).min.untop' 0,
    (c.image Prod.fst).max.unbot' 0 + 1 - (c.image Prod.fst).min.untop' 0)

/-- Translation of the bounding-box step of canvas fitting
(process_stickers.py, lines 201-206): label the regions of the bleed mask
and take the bounding box of regions[0], the first labelled region.
Returns none when the mask has no region at all, where the source raises
IndexError. -/
def canvas_bbox (g : Grid) : Option (ℕ × ℕ × ℕ × ℕ) :=
  match componentsList g with
  | [] => none
  | c :: _ => some (regionXYWH c)

theorem componentsList_cover (g : Grid) (r c : ℕ)
    (h : cellAt g r c = some true) :
    ∃ comp ∈ componentsList g, (r, c) ∈ comp :=
  componentsAux_cover _ _ _ (le_refl _) (fun _ hx => List.mem_toFinset.mpr hx)
    (r, c) ((mem_onPixels g r c).mpr h)

theorem componentsList_subset (g : Grid) :
    ∀ comp ∈ componentsList g, ∀ x ∈ comp, cellAt g x.1 x.2 = some true := by
  intro comp hcomp x hx
  have h1 := componentsAux_mem_subset _ _ _
    (fun y hy => List.mem_toFinset.mpr hy) comp hcomp x hx
  have h2 := List.mem_toFinset.mp h1
  obtain ⟨xr, xc⟩ := x
  exact (mem_onPixels g xr xc).mp h2

theorem componentsList_disjoint (g : Grid) :
    (componentsList g).Pairwise fun c d => ∀ x, x ∈ c → x ∉ d :=
  componentsAux_disjoint _ _ _ fun _ hx => List.mem_toFinset.mpr hx

theorem componentsList_conn (g : Grid) :
    ∀ comp ∈ componentsList g, ∃ p ∈ (onPixels g).toFinset,
      ∀ x, x ∈ comp ↔ ConnOn (onPixels g).toFinset p x := by
  intro comp hcomp
  obtain ⟨p, hp, rfl⟩ := componentsAux_seed _ _ _ comp hcomp
  have hpm : p ∈ (onPixels g).toFinset := List.mem_toFinset.mpr hp
  exact ⟨p, hpm, fun x => mem_componentOf _ p hpm x⟩

theorem componentsList_ne_nil (g : Grid) (hne : onPixels g ≠ []) :
    componentsList g ≠ [] := by
  unfold componentsList
  cases hl : onPixels g with
  | nil => exact absurd hl hne
  | cons p ps =>
    simp [componentsAux]

/-- The hole-removal step keeps exactly the pixels of the head of the
sorted region list and clears everything else. -/
theorem remove_keeps_head (g : Grid) (hne : onPixels g ≠ []) :
    ∃ chead minor,
      stableSort (fun cd dd : Finset Pt => decide (dd.card ≤ cd.card))
        (componentsList g) = chead :: minor ∧
      ∀ r c, (getPx (remove_minor_regions g) r c = true ↔ (r, c) ∈ chead) := by
  have hC := componentsList_ne_nil g hne
  obtain ⟨chead, minor, hsorteq⟩ : ∃ ch mn,
      stableSort (fun cd dd : Finset Pt => decide (dd.card ≤ cd.card))
        (componentsList g) = ch :: mn := by
    cases hs : stableSort (fun cd dd : Finset Pt => decide (dd.card ≤ cd.card))
        (componentsList g) with
    | nil =>
      have hperm := stableSort_perm
        (fun cd dd : Finset Pt => decide (dd.card ≤ cd.card)) (componentsList g)
      rw [hs] at hperm
      exact absurd (List.Perm.nil_eq hperm).symm hC
    | cons ch mn => exact ⟨ch, mn, rfl⟩
  have hperm := stableSort_perm
    (fun cd dd : Finset Pt => decide (dd.card ≤ cd.card)) (componentsList g)
  rw [hsorteq] at hperm
  refine ⟨chead, minor, hsorteq, ?_⟩
  intro r c
  unfold remove_minor_regions
  rw [getPx_mapGrid, hsorteq]
  cases hcell : cellAt g r c with
  | none =>
    simp only [Option.map_none', Option.getD_none]
    constructor
    · intro h
      cases h
    · intro h
      have := componentsList_subset g chead (hperm.mem_iff.mp (by simp)) (r, c) h
      rw [hcell] at this
      cases this
  | some b =>
    simp only [Option.map_some', Option.getD_some, List.drop_succ_cons,
      List.drop_zero, Bool.and_eq_true, Bool.not_eq_true']
    constructor
    · rintro ⟨hb, hany⟩
      subst hb
      rw [List.any_eq_false] at hany
      obtain ⟨comp, hcomp, hmem⟩ := componentsList_cover g r c hcell
      have : comp ∈ chead :: minor := hperm.mem_iff.mpr hcomp
      rcases List.mem_cons.mp this with h2 | h2
      · rw [← h2]
        exact hmem
      · exact absurd (by simpa using hmem) (by simpa using hany comp h2)
    · intro hmem
      have hcheadC : chead ∈ componentsList g := hperm.mem_iff.mp (by simp)
      have hcelltrue := componentsList_subset g chead hcheadC (r, c) hmem
      rw [hcell] at hcelltrue
      obtain rfl := (Option.some.inj hcelltrue).symm
      refine ⟨rfl, ?_⟩
      rw [List.any_eq_false]
      intro reg hreg
      have hpair := (hperm.pairwise_iff
        (fun hcd x hx1 hx2 => hcd x hx2 hx1)).mpr (componentsList_disjoint g)
      have hdisj := (List.pairwise_cons.mp hpair).1 reg hreg
      simpa using hdisj (r, c) hmem

/-- Translation of adjust_image_size (process_stickers.py, lines 21-38):
crop the buffer to the bounding box and pad it on all sides up to the
target square size, the extra pixel going after the content when the
remaining padding is odd.  numpy.pad rejects negative padding and Python
slicing clamps out-of-range bounds; the pipeline reaches this call only
with the bounding box inside the buffer and not larger than the target
size, where truncated ℕ subtraction and list slicing agree with the numpy
semantics.  Blank padding rows take the width of the cropped array, as
numpy.pad does. -/
def adjust_image_size (matrix : List (List α)) (bbox : ℕ × ℕ × ℕ × ℕ)
    (target_size_px : ℕ) (pad_value : α) : List (List α) :=
  let bbox_x := bbox.1
  let bbox_y := bbox.2.1
  let bbox_width := bbox.2.2.1
  let bbox_height := bbox.2.2.2
  let pad_x1 := (target_size_px - bbox_width) / 2
  let pad_y1 := (target_size_px - bbox_height) / 2
  let pad_x2 := (target_size_px - bbox_width) - pad_x1
  let pad_y2 := (target_size_px - bbox_height) - pad_y1
  let source_pixels := ((matrix.drop bbox_y).take bbox_height).map
    fun row => (row.drop bbox_x).take bbox_width
  let row_width := pad_x1 + (source_pixels.headD []).length + pad_x2
  (List.replicate pad_y1 (List.replicate row_width pad_value)) ++
    source_pixels.map (fun row => List.replicate pad_x1 pad_value ++ row ++
      List.replicate pad_x2 pad_value) ++
    List.replicate pad_y2 (List.replicate row_width pad_value)

/-- An RGBA color pixel. -/
abbrev RGBA := ℕ × ℕ × ℕ × ℕ

/-- A resolved design: the loaded artwork image, the alpha channel of the
loaded mask image, and the scalar settings obtained by layering the
per-design details over the global settings (process_stickers.py, lines
116-166).  The width is None when neither specifies one. -/
structure Design where
  color_image : List (List RGBA)
  mask_alpha : List (List ℕ)
  width : Option ℚ
  thickness : ℚ
  bleed_thickness : ℚ
  min_corner_radius : ℚ
  alpha_threshold : ℕ
  sizes : List ℚ

/-- The Python expression width / width_inches (line 152): width_inches
is None when the design specifies no width, and dividing an int by None
raises TypeError.  Division by zero raises ZeroDivisionError. -/
def pyDivWidth (width : ℕ) : Option ℚ → Except PyError ℚ
  | none => .error .typeErrorNoneDivision
  | some w => if w = 0 then .error .zeroDivisionError else .ok (width / w)

/-- Complement of a boolean mask (numpy operator ~). -/
def complementGrid (g : Grid) : Grid := mapGrid g fun _ _ b => !b

/-- skimage.morphology.binary_dilation with its default cross-shaped
footprint: a pixel is set when it or one of its 4 orthogonal neighbours
is set. -/
def binary_dilation (g : Grid) : Grid :=
  mapGrid g fun r c b =>
    b || getPx g r (c + 1) || getPx g (r + 1) c
      || (decide (0 < c) && getPx g r (c - 1))
      || (decide (0 < r) && getPx g (r - 1) c)

/-- Cut contour (line 191): binary_dilation(cut_mask) ^ cut_mask, a
one-pixel ring around the cut mask. -/
def cut_contour_of (g : Grid) : Grid :=
  mapGrid g fun r c b => xor (getPx (binary_dilation g) r c) b

/-- The thresholded silhouette mask (line 169): a pixel is on when the
alpha channel of the mask image strictly exceeds the threshold. -/
def art_mask_of (d : Design) : Grid :=
  d.mask_alpha.map fun row => row.map fun a => decide (d.alpha_threshold < a)

/-- Values produced by one successful run of the per-design pipeline: the
intermediate masks, the canvas-fitted buffers and the values written to
the per-design info record. -/
structure PipeOutput where
  dpi : ℚ
  art_mask : Grid
  outside_mask : Grid
  cut_mask : Grid
  cut_contour : Grid
  bleed_mask : Grid
  bbox : ℕ × ℕ × ℕ × ℕ
  art_size_px : ℕ
  target_size_inches : ℚ
  target_size_px : ℕ
  color_out : List (List RGBA)
  bleed_out : Grid
  cut_out : Grid
  contour_out : Grid

/-- Translation of the body of the per-design loop of main
(process_stickers.py, lines 140-222), from the loaded images to the
canvas-fitted buffers and the values of the info record.  Every step that
can raise in Python returns through the Except monad.  The target size in
pixels is int(target_size_inches * dpi); for the non-negative values
arising here Python int() truncation agrees with the floor. -/
def process_design (d : Design) : Except PyError PipeOutput :=
  match pyDivWidth (d.color_image.headD []).length d.width with
  | .error e => .error e
  | .ok dpi =>
    match expand_edge (art_mask_of d)
        (d.thickness * dpi + d.min_corner_radius * dpi) with
    | .error e => .error e
    | .ok grown =>
      match expand_edge (remove_minor_regions (complementGrid grown))
          (d.min_corner_radius * dpi) with
      | .error e => .error e
      | .ok shrunk =>
        match expand_edge (complementGrid shrunk) (d.bleed_thickness * dpi) with
        | .error e => .error e
        | .ok bleed_mask =>
          match canvas_bbox bleed_mask with
          | none => .error .indexErrorNoRegions
          | some bbox =>
            match find_smallest_size
                (((max bbox.2.2.1 bbox.2.2.2 : ℕ) : ℚ) / dpi) d.sizes with
            | .error e => .error e
            | .ok target_size_inches =>
              .ok {
                dpi := dpi
                art_mask := art_mask_of d
                outside_mask := remove_minor_regions (complementGrid grown)
                cut_mask := complementGrid shrunk
                cut_contour := cut_contour_of (complementGrid shrunk)
                bleed_mask := bleed_mask
                bbox := bbox
                art_size_px := max bbox.2.2.1 bbox.2.2.2
                target_size_inches := target_size_inches
                target_size_px := (⌊target_size_inches * dpi⌋).toNat
                color_out := adjust_image_size d.color_image bbox
                  (⌊target_size_inches * dpi⌋).toNat (0, 0, 0, 0)
                bleed_out := adjust_image_size bleed_mask bbox
                  (⌊target_size_inches * dpi⌋).toNat false
                cut_out := adjust_image_size (complementGrid shrunk) bbox
                  (⌊target_size_inches * dpi⌋).toNat false
                contour_out := adjust_image_size
                  (cut_contour_of (complementGrid shrunk)) bbox
                  (⌊target_size_inches * dpi⌋).toNat false
              }

/-- Translation of the driver loop over the designs of the config file
(process_stickers.py, line 116): each design is processed in turn with no
exception handling around the loop body, so the first exception raised
while processing a design propagates and aborts the whole loop. -/
def process_all : List Design → Except PyError (List PipeOutput)
  | [] => .ok []
  | d :: rest =>
    match process_design d with
    | .error e => .error e
    | .ok out =>
      match process_all rest with
      | .error e => .error e
      | .ok outs => .ok (out :: outs)

/-- A small valid design: a 4x4 artwork with a solid 2x2 centre blob in
the mask, physical width 4 inches (so 1 dpi), thickness 1/2, bleed 1/4,
corner radius 1/4, threshold 100 and catalog [1, 2, 3, 4, 5]. -/
def goodDesign : Design where
  color_image := List.replicate 4 (List.replicate 4 ((10, 20, 30, 255) : RGBA))
  mask_alpha := [[0, 0, 0, 0], [0, 255, 255, 0], [0, 255, 255, 0], [0, 0, 0, 0]]
  width := some 4
  thickness := 1 / 2
  bleed_thickness := 1 / 4
  min_corner_radius := 1 / 4
  alpha_threshold := 100
  sizes := [1, 2, 3, 4, 5]

/-- A design whose mask image is entirely transparent: its thresholded
mask has no on pixel, which the spec calls a degenerate mask. -/
def transparentDesign : Design where
  color_image := List.replicate 4 (List.replicate 4 ((10, 20, 30, 255) : RGBA))
  mask_alpha := List.replicate 4 (List.replicate 4 0)
  width := some 4
  thickness := 1 / 2
  bleed_thickness := 1 / 4
  min_corner_radius := 1 / 4
  alpha_threshold := 100
  sizes := [1, 2, 3, 4, 5]

/-- The good design with the physical width left unspecified. -/
def widthlessDesign : Design where
  color_image := List.replicate 4 (List.replicate 4 ((10, 20, 30, 255) : RGBA))
  mask_alpha := [[0, 0, 0, 0], [0, 255, 255, 0], [0, 255, 255, 0], [0, 0, 0, 0]]
  width := none
  thickness := 1 / 2
  bleed_thickness := 1 / 4
  min_corner_radius := 1 / 4
  alpha_threshold := 100
  sizes := [1, 2, 3, 4, 5]

/-- The output of the pipeline on the good design, extracted from the run. -/
def goodOut : PipeOutput :=
  match process_design goodDesign with
  | .ok out => out
  | .error _ => {
      dpi := 0, art_mask := [], outside_mask := [], cut_mask := [],
      cut_contour := [], bleed_mask := [], bbox := (0, 0, 0, 0),
      art_size_px := 0, target_size_inches := 0, target_size_px := 0,
      color_out := [], bleed_out := [], cut_out := [], contour_out := [] }

/-- Inversion of a successful pipeline run: the bleed mask of the output
is exactly the cut mask of the output expanded by the bleed thickness in
pixels, bleed_thickness * dpi. -/
theorem process_design_bleed (d : Design) (out : PipeOutput)
    (h : process_design d = .ok out) :
    expand_edge out.cut_mask (d.bleed_thickness * out.dpi) = .ok out.bleed_mask := by
  unfold process_design at h
  split at h
  · cases h
  next dpi h1 =>
    split at h
    · cases h
    next grown h2 =>
      split at h
      · cases h
      next shrunk h3 =>
        split at h
        · cases h
        next bleed h4 =>
          split at h
          · cases h
          next bbox h5 =>
            split at h
            · cases h
            next target h6 =>
              injection h with h7
              subst h7
              exact h4

/-! ## Claims -/

unseal Rat.mul Rat.inv Rat.add Rat.sub in
/-- C1 counterexample: a run over two designs where the first has an
all-transparent mask (the degenerate-mask failure of the spec) and the
second is valid.  The failure propagates out of the driver loop: the whole
run returns the error and the second design is never processed, even
though processing it alone succeeds.  This refutes the claim that a
per-design failure only skips that design and processing continues. -/
theorem c1_counterexample_run_terminates :
    process_all [transparentDesign, goodDesign] = .error .valueErrorNoContour ∧
      process_design transparentDesign = .error .valueErrorNoContour ∧
      process_design goodDesign = .ok goodOut :=
  ⟨rfl, rfl, rfl⟩

/-- C1 amended: the driver loop has no per-design exception handling, so a
per-design failure terminates the whole run at that design and the
remaining designs are not processed. -/
theorem c1_amended_error_propagates (d : Design) (rest : List Design)
    (e : PyError) (h : process_design d = .error e) :
    process_all (d :: rest) = .error e := by
  unfold process_all
  rw [h]

theorem c1_amended_error_propagates_witness :
    process_all [transparentDesign, goodDesign] = .error .valueErrorNoContour :=
  c1_amended_error_propagates transparentDesign [goodDesign]
    .valueErrorNoContour rfl

/-- C2 as the code actually behaves: when a design does not specify a
physical width, width_inches is None, and the dpi computation
width / width_inches raises TypeError, aborting the design; the fixed
default of 300 dpi promised by the log message on line 141 is never
applied.  This contradicts the intent stated by that very message. -/
theorem c2_width_none_raises_typeerror (d : Design) (hw : d.width = none) :
    process_design d = .error .typeErrorNoneDivision := by
  unfold process_design
  rw [hw]
  rfl

theorem c2_width_none_raises_typeerror_witness :
    process_design widthlessDesign = .error .typeErrorNoneDivision :=
  c2_width_none_raises_typeerror widthlessDesign rfl

/-- C3: find_smallest_size returns the smallest entry of the size list
strictly greater than the given size (an entry equal to the size is never
selected), and raises ValueError exactly when no entry is strictly
greater. -/
theorem c3_find_smallest_size_spec (size : ℚ) (size_list : List ℚ) :
    (∀ v, find_smallest_size size size_list = .ok v →
        v ∈ size_list ∧ size < v ∧ ∀ x ∈ size_list, size < x → v ≤ x) ∧
      ((∃ x ∈ size_list, size < x) →
        ∃ v, find_smallest_size size size_list = .ok v) ∧
      ((∀ x ∈ size_list, x ≤ size) →
        find_smallest_size size size_list = .error .valueErrorNoSize) := by
  unfold find_smallest_size
  refine ⟨?_, ?_, ?_⟩
  · intro v hv
    obtain ⟨hmem, hgt, hmin⟩ :=
      findFirstGreater_ok size v _ (sortQ_pairwise size_list) hv
    exact ⟨(mem_stableSort _ _ v).mp hmem, hgt,
      fun x hx hxgt => hmin x ((mem_stableSort _ _ x).mpr hx) hxgt⟩
  · rintro ⟨x, hx, hgt⟩
    exact findFirstGreater_exists size _ x ((mem_stableSort _ _ x).mpr hx) hgt
  · intro hall
    exact findFirstGreater_err size _ fun x hx =>
      hall x ((mem_stableSort _ _ x).mp hx)

unseal Rat.mul Rat.inv Rat.add Rat.sub in
/-- C3 witness: with catalog [1, 2, 3, 4], size 2.5 selects 3 (which is in
the catalog, greater than 2.5, and least such), and size 4.0 raises. -/
theorem c3_find_smallest_size_spec_witness :
    ((3 : ℚ) ∈ [(1 : ℚ), 2, 3, 4] ∧ (5 : ℚ) / 2 < 3 ∧
        ∀ x ∈ [(1 : ℚ), 2, 3, 4], (5 : ℚ) / 2 < x → 3 ≤ x) ∧
      find_smallest_size 4 [1, 2, 3, 4] = .error .valueErrorNoSize := by
  constructor
  · exact (c3_find_smallest_size_spec ((5 : ℚ) / 2) [1, 2, 3, 4]).1 3 rfl
  · exact (c3_find_smallest_size_spec (4 : ℚ) [1, 2, 3, 4]).2.2 (by norm_num)

/-- C5: on a mask with at least one connected component, the hole-removal
step keeps exactly the pixels of one spatially largest connected component
(a genuine component: the set of pixels connected to some seed pixel) and
clears every pixel belonging to any other component. -/
theorem c5_remove_minor_regions_keeps_largest (g : Grid)
    (hne : onPixels g ≠ []) :
    ∃ c ∈ componentsList g,
      (∀ d2 ∈ componentsList g, d2.card ≤ c.card) ∧
      (∃ p ∈ (onPixels g).toFinset,
        ∀ x, x ∈ c ↔ ConnOn (onPixels g).toFinset p x) ∧
      ∀ r col, (getPx (remove_minor_regions g) r col = true ↔ (r, col) ∈ c) := by
  obtain ⟨chead, minor, hsorteq, hiff⟩ := remove_keeps_head g hne
  have hperm := stableSort_perm
    (fun cd dd : Finset Pt => decide (dd.card ≤ cd.card)) (componentsList g)
  rw [hsorteq] at hperm
  have hmem : chead ∈ componentsList g := hperm.mem_iff.mp (by simp)
  have hfm := stableSort_head_firstMax Finset.card (componentsList g)
  rw [hsorteq] at hfm
  have hfind : (componentsList g).find?
      (fun a => (componentsList g).all fun b => decide (b.card ≤ a.card)) =
      some chead := hfm.symm
  have hpred := List.find?_some hfind
  have hmax : ∀ d2 ∈ componentsList g, d2.card ≤ chead.card := by
    intro d2 hd2
    have := List.all_eq_true.mp hpred d2 hd2
    simpa using this
  exact ⟨chead, hmem, hmax, componentsList_conn g chead hmem, hiff⟩

/-- C5 witness: the theorem applied to a concrete two-pixel mask. -/
theorem c5_remove_minor_regions_keeps_largest_witness :
    ∃ c ∈ componentsList [[true, true]],
      (∀ d2 ∈ componentsList [[true, true]], d2.card ≤ c.card) ∧
      (∃ p ∈ (onPixels [[true, true]]).toFinset,
        ∀ x, x ∈ c ↔ ConnOn (onPixels [[true, true]]).toFinset p x) ∧
      ∀ r col, (getPx (remove_minor_regions [[true, true]]) r col = true ↔
        (r, col) ∈ c) :=
  c5_remove_minor_regions_keeps_largest [[true, true]] (by decide)

/-- C6: for every successfully processed design with a non-negative bleed
thickness (and a non-negative resolved dpi, so that the bleed distance in
pixels is non-negative), every pixel of cut_mask is also a pixel of
bleed_mask: bleed_mask is cut_mask grown by that distance. -/
theorem c6_cut_subset_bleed (d : Design) (out : PipeOutput)
    (hrun : process_design d = .ok out) (hb : 0 ≤ d.bleed_thickness)
    (hdpi : 0 ≤ out.dpi) (r c : ℕ)
    (hpx : getPx out.cut_mask r c = true) : getPx out.bleed_mask r c = true :=
  expand_edge_superset _ _ _ (mul_nonneg hb hdpi)
    (process_design_bleed d out hrun) r c hpx

unseal Rat.mul Rat.inv Rat.add Rat.sub in
/-- C6 witness: the theorem applied to the concrete good design at a pixel
of its cut mask. -/
theorem c6_cut_subset_bleed_witness : getPx goodOut.bleed_mask 1 1 = true :=
  c6_cut_subset_bleed goodDesign goodOut rfl (by norm_num [goodDesign])
    (by decide) 1 1 rfl

/-- C7 counterexample: the all-true 1x1 mask is non-empty, yet expanding
it by distance 0 does not return the mask: the phase field has no zero
contour and skfmm.distance raises ValueError.  This refutes the claim for
masks that cover the whole grid. -/
theorem c7_counterexample_full_mask :
    onPixels [[true]] ≠ [] ∧
      expand_edge [[true]] 0 = .error .valueErrorNoContour := by
  exact ⟨by decide, rfl⟩

/-- C7 amended: for every mask with at least one on pixel and at least one
off pixel within the grid, expansion by distance 0 is the identity. -/
theorem c7_amended_expand_zero_id (g : Grid) (hon : onPixels g ≠ [])
    (hoff : offPixels g ≠ []) : expand_edge g 0 = .ok g := by
  unfold expand_edge
  rw [if_neg (by simp [hon, hoff])]
  congr 1
  apply mapGrid_eq_self
  intro r c b hcell
  cases b with
  | false =>
    apply expandCell_zero_off
    apply one_le_minSqTo _ _ hon
    rintro ⟨qr, qc⟩ hq hqp
    rw [mem_onPixels] at hq
    rw [Prod.mk.injEq] at hqp
    obtain ⟨rfl, rfl⟩ := hqp
    rw [hcell] at hq
    cases hq
  | true =>
    apply expandCell_on _ _ _ (le_refl 0)
    apply one_le_minSqTo _ _ hoff
    rintro ⟨qr, qc⟩ hq hqp
    rw [mem_offPixels] at hq
    rw [Prod.mk.injEq] at hqp
    obtain ⟨rfl, rfl⟩ := hqp
    rw [hcell] at hq
    cases hq

unseal Rat.mul Rat.inv Rat.add Rat.sub in
/-- C7 witness for the amended statement at a concrete mask. -/
theorem c7_amended_expand_zero_id_witness :
    expand_edge [[true, false]] 0 = .ok [[true, false]] :=
  c7_amended_expand_zero_id [[true, false]] (by decide) (by decide)

/-- C8: for distances d1 < d2, every pixel of the d1-expansion of a
non-empty mask is a pixel of the d2-expansion: thresholding one signed
distance field is monotone in the threshold. -/
theorem c8_expand_monotone (g : Grid) (d1 d2 : ℚ) (m1 m2 : Grid)
    (_hon : onPixels g ≠ []) (hlt : d1 < d2)
    (h1 : expand_edge g d1 = .ok m1) (h2 : expand_edge g d2 = .ok m2)
    (r c : ℕ) (hpx : getPx m1 r c = true) : getPx m2 r c = true := by
  obtain ⟨-, -, hm1⟩ := expand_edge_ok g d1 m1 h1
  obtain ⟨-, -, hm2⟩ := expand_edge_ok g d2 m2 h2
  subst hm1
  subst hm2
  rw [getPx_eq_true_iff, cellAt_mapGrid] at hpx ⊢
  cases hcell : cellAt g r c with
  | none =>
    rw [hcell] at hpx
    simp at hpx
  | some b =>
    rw [hcell] at hpx
    simp only [Option.map_some', Option.some.injEq] at hpx ⊢
    exact expandCell_mono _ _ d1 d2 (le_of_lt hlt) r c b hpx

unseal Rat.mul Rat.inv Rat.add Rat.sub in
/-- C8 witness at a concrete mask with d1 = 0 and d2 = 1. -/
theorem c8_expand_monotone_witness : getPx [[true, true]] 0 0 = true :=
  c8_expand_monotone [[true, false]] 0 1 [[true, false]] [[true, true]]
    (by decide) (by norm_num) rfl rfl 0 0 rfl

/-- C10: the component kept by hole removal is the first region in label
order whose pixel count is maximal; in particular, when several components
tie for the largest size, the one with the lowest label (first in the
labeling scan order) is kept, because the stable descending sort preserves
label order among equal pixel counts. -/
theorem c10_tiebreak_lowest_label (g : Grid) (hne : onPixels g ≠ []) :
    ∃ c, (componentsList g).find?
        (fun c2 => (componentsList g).all fun d2 => decide (d2.card ≤ c2.card)) =
        some c ∧
      ∀ r col, (getPx (remove_minor_regions g) r col = true ↔ (r, col) ∈ c) := by
  obtain ⟨chead, minor, hsorteq, hiff⟩ := remove_keeps_head g hne
  have hfm := stableSort_head_firstMax Finset.card (componentsList g)
  rw [hsorteq] at hfm
  exact ⟨chead, hfm.symm, hiff⟩

/-- C10 witness: a mask with two one-pixel components; the one containing
the first pixel in scan order is kept, the other cleared. -/
theorem c10_tiebreak_lowest_label_witness :
    getPx (remove_minor_regions [[true, false, false], [false, false, false],
      [false, false, true]]) 0 0 = true ∧
    getPx (remove_minor_regions [[true, false, false], [false, false, false],
      [false, false, true]]) 2 2 = false := by
  obtain ⟨c, hfind, hiff⟩ := c10_tiebreak_lowest_label
    [[true, false, false], [false, false, false], [false, false, true]] (by decide)
  have heval : (componentsList [[true, false, false], [false, false, false],
      [false, false, true]]).find?
      (fun c2 => (componentsList [[true, false, false], [false, false, false],
        [false, false, true]]).all fun d2 => decide (d2.card ≤ c2.card)) =
      some {((0 : ℕ), (0 : ℕ))} := by decide
  have hc : c = {((0 : ℕ), (0 : ℕ))} := Option.some.inj (hfind.symm.trans heval)
  subst hc
  constructor
  · exact (hiff 0 0).mpr (by decide)
  · by_contra hcon
    rw [Bool.not_eq_false] at hcon
    have := (hiff 2 2).mp hcon
    simp at this

/-- Bleed mask with a stray one-pixel component that comes first in
row-major scan order, followed by a larger 2x2 component. -/
def strayGrid : Grid :=
  [[true, false, false, false],
   [false, false, false, false],
   [false, true, true, false],
   [false, true, true, false]]

/-- C4 counterexample: on this bleed mask the spatially largest connected
component is the 2x2 block, but the bounding box the canvas-fitting step
uses is that of regions[0], the one-pixel region that is first in label
order, not the bounding box of the largest component. -/
theorem c4_counterexample_bbox_not_largest :
    ∃ c ∈ componentsList strayGrid,
      (∀ d2 ∈ componentsList strayGrid, d2.card ≤ c.card) ∧
      canvas_bbox strayGrid ≠ some (regionXYWH c) := by decide

/-- C4 amended: the bounding box used for canvas fitting is the bounding
box of the first labelled region of the bleed mask, i.e. of the connected
component containing the first on pixel in row-major scan order. -/
theorem c4_amended_bbox_first_region (g : Grid) (p0 : Pt) (ps : List Pt)
    (hscan : onPixels g = p0 :: ps) :
    ∃ c : Finset Pt, (∀ x, x ∈ c ↔ ConnOn (onPixels g).toFinset p0 x) ∧
      canvas_bbox g = some (regionXYWH c) := by
  refine ⟨componentOf (onPixels g).toFinset p0, ?_, ?_⟩
  · intro x
    apply mem_componentOf
    rw [hscan]
    simp
  · unfold canvas_bbox componentsList
    rw [hscan]
    simp only [List.length_cons, componentsAux]

/-- C4 witness for the amended statement: on the stray-pixel mask the
fitted bounding box is that of the component of the scan-first pixel. -/
theorem c4_amended_bbox_first_region_witness :
    ∃ c : Finset Pt,
      (∀ x, x ∈ c ↔ ConnOn (onPixels strayGrid).toFinset (0, 0) x) ∧
      canvas_bbox strayGrid = some (regionXYWH c) :=
  c4_amended_bbox_first_region strayGrid (0, 0)
    [(2, 1), (2, 2), (3, 1), (3, 2)] (by decide)

/-- Dimensions of adjust_image_size: cropping a rectangular buffer to an
in-bounds bounding box no larger than the target and padding it yields an
exact target-sized square. -/
theorem adjust_dims {α : Type} (m : List (List α)) (W x y w h T : ℕ) (pad : α)
    (hrect : ∀ row ∈ m, row.length = W) (hy : y + h ≤ m.length)
    (hx : x + w ≤ W) (hh0 : 0 < h) (hhT : h ≤ T) (hwT : w ≤ T) :
    (adjust_image_size m (x, y, w, h) T pad).length = T ∧
      ∀ row ∈ adjust_image_size m (x, y, w, h) T pad, row.length = T := by
  have hcroplen : ((m.drop y).take h).length = h := by
    rw [List.length_take, List.length_drop]
    omega
  have hcropmem : ∀ row ∈ (m.drop y).take h, row ∈ m :=
    fun row hr => List.drop_subset y m (List.take_subset h _ hr)
  have hrowlen : ∀ row ∈ (m.drop y).take h, ((row.drop x).take w).length = w := by
    intro row hr
    rw [List.length_take, List.length_drop, hrect row (hcropmem row hr)]
    omega
  cases hbase : (m.drop y).take h with
  | nil =>
    rw [hbase] at hcroplen
    simp at hcroplen
    omega
  | cons b0 brest =>
    have hhead : ((b0.drop x).take w).length = w :=
      hrowlen b0 (by rw [hbase]; simp)
    simp only [adjust_image_size, hbase]
    constructor
    · simp only [List.length_append, List.length_replicate, List.length_map,
        List.length_cons]
      rw [hbase] at hcroplen
      simp only [List.length_cons] at hcroplen
      omega
    · intro row hrow
      rcases List.mem_append.mp hrow with h12 | h3
      · rcases List.mem_append.mp h12 with h1 | h2
        · rw [List.eq_of_mem_replicate h1]
          simp only [List.map_cons, List.headD_cons, List.length_replicate, hhead]
          omega
        · obtain ⟨srow, hsrow, hrweq⟩ := List.mem_map.mp h2
          obtain ⟨row0, hrow0, hfeq⟩ := List.mem_map.mp hsrow
          have hsl : srow.length = w := by
            rw [← hfeq]
            rcases List.mem_cons.mp hrow0 with h0 | h0
            · rw [h0]
              exact hhead
            · exact hrowlen row0 (by rw [hbase]; simp [h0])
          rw [← hrweq]
          simp only [List.length_append, List.length_replicate, hsl]
          omega
      · rw [List.eq_of_mem_replicate h3]
        simp only [List.map_cons, List.headD_cons, List.length_replicate, hhead]
        omega

/-- C9: canvas fitting pads every buffer whose bounding-box crop lies
inside the buffer and fits within the target square to exactly
target_size_px by target_size_px pixels, where target_size_px is
int(target_size_inches * dpi); all four buffers of one design are fitted
with the same bounding box and the same target, hence share these
identical square dimensions regardless of the original aspect ratio. -/
theorem c9_adjust_image_size_square {α : Type} (m : List (List α))
    (W x y w h : ℕ) (pad : α) (ti dpi : ℚ)
    (hrect : ∀ row ∈ m, row.length = W) (hy : y + h ≤ m.length)
    (hx : x + w ≤ W) (hh0 : 0 < h)
    (hhT : h ≤ (⌊ti * dpi⌋).toNat) (hwT : w ≤ (⌊ti * dpi⌋).toNat) :
    (adjust_image_size m (x, y, w, h) ((⌊ti * dpi⌋).toNat) pad).length =
        (⌊ti * dpi⌋).toNat ∧
      ∀ row ∈ adjust_image_size m (x, y, w, h) ((⌊ti * dpi⌋).toNat) pad,
        row.length = (⌊ti * dpi⌋).toNat :=
  adjust_dims m W x y w h ((⌊ti * dpi⌋).toNat) pad hrect hy hx hh0 hhT hwT

unseal Rat.mul Rat.inv Rat.add Rat.sub in
/-- C9 witness: a 2x2 buffer fitted into the 3-inch square at 1 dpi comes
out as exactly 3x3. -/
theorem c9_adjust_image_size_square_witness :
    (adjust_image_size [[1, 2], [3, 4]] (0, 0, 2, 2)
        ((⌊(3 : ℚ) * 1⌋).toNat) (0 : ℕ)).length = (⌊(3 : ℚ) * 1⌋).toNat ∧
      ∀ row ∈ adjust_image_size [[1, 2], [3, 4]] (0, 0, 2, 2)
          ((⌊(3 : ℚ) * 1⌋).toNat) (0 : ℕ),
        row.length = (⌊(3 : ℚ) * 1⌋).toNat :=
  c9_adjust_image_size_square [[1, 2], [3, 4]] 2 0 0 2 2 0 3 1 (by decide)
    (by decide) (by decide) (by decide) (by decide) (by decide)

end Stickers
